import Mathlib

/-!
Verification of the `no_file_left_behind` reconciliation tool (src/main.py).

The development shallowly embeds the program:

* `group_by` embeds `group_by` (main.py:76-81): a Python dict built with
  `setdefault(...).append(...)` is an insertion-ordered association list,
  so the embedding folds `upsert` over the input list.
* `match_by` / `match_keys` embed `match_by` (main.py:84-99); the loop
  over `matching_keys` becomes the auxiliary recursion `match_keys`.
  Python iterates matching/non-matching keys in unspecified `set` order;
  the embedding uses first-occurrence order of the scratch grouping, which
  yields the same results up to permutation (all properties proved are
  order-insensitive).
* `LazyFile` state (cached size / sha1) and the stateful runs are embedded
  further below.
-/

set_option linter.unusedSectionVars false

namespace NoFileLeftBehind

open List

section Grouping

variable {α : Type} {κ : Type} [DecidableEq κ]

/-- One step of `res.setdefault(key, []).append(f)` on an insertion-ordered
association list: append `x` to the group of `k`, or create the group at the
end when `k` is new. -/
def upsert (k : κ) (x : α) : List (κ × List α) → List (κ × List α)
  | [] => [(k, [x])]
  | (k', g) :: rest =>
    if k' = k then (k', g ++ [x]) :: rest else (k', g) :: upsert k x rest

/-- Embedding of `group_by` (main.py:76-81). -/
def group_by (func : α → κ) (files : List α) : List (κ × List α) :=
  files.foldl (fun res f => upsert (func f) f res) []

/-- The keys of a grouping, in insertion order (`set(d)` iterates dict keys). -/
def keysOf (g : List (κ × List α)) : List κ :=
  g.map Prod.fst

/-- Dictionary lookup `d[k]` on the association list (first binding wins). -/
def lookup_group (g : List (κ × List α)) (k : κ) : List α :=
  match g with
  | [] => []
  | (k', xs) :: rest => if k' = k then xs else lookup_group rest k

end Grouping

section Matcher

variable {α : Type} {κ : Type} [DecidableEq κ]

mutual

/-- Embedding of `match_by` (main.py:84-99).  The Python `for k in
matching_keys` loop is the auxiliary function `match_keys`; the final pair
is `(matching, no_match)`. -/
def match_by : List (α → κ) → List α → List α → List α × List α
  | [], scratch, _ => (scratch, [])
  | f :: rest, scratch, archive =>
    let scratch_group := group_by f scratch
    let archive_group := group_by f archive
    let matching_keys :=
      (keysOf scratch_group).filter (fun k => decide (k ∈ keysOf archive_group))
    let non_matching_keys :=
      (keysOf scratch_group).filter (fun k => !decide (k ∈ keysOf archive_group))
    let no_match :=
      (non_matching_keys.map (fun k => lookup_group scratch_group k)).flatten
    let p := match_keys rest scratch_group archive_group matching_keys
    (p.1, no_match ++ p.2)
termination_by funcs _ _ => (funcs.length + 1, 0)

/-- The loop body of `match_by` (main.py:95-98): recurse on each matching
key's groups with the remaining key functions and accumulate. -/
def match_keys : List (α → κ) → List (κ × List α) → List (κ × List α) →
    List κ → List α × List α
  | _, _, _, [] => ([], [])
  | rest, sg, ag, k :: ks =>
    let q := match_by rest (lookup_group sg k) (lookup_group ag k)
    let q2 := match_keys rest sg ag ks
    (q.1 ++ q2.1, q.2 ++ q2.2)
termination_by rest _ _ ks => (rest.length + 1, ks.length + 1)

end

end Matcher

section ConcreteModel

/-- Comparison-key type for the two key functions of `main` (main.py:118):
the first stage compares `int` sizes, the second compares `str` digests.
Distinct Python types at distinct stages are distinct constructors. -/
inductive Key where
  | intKey : Nat → Key
  | strKey : String → Key
deriving DecidableEq

/-- The pure view of a `LazyFile` (main.py:21-50): its path and the values
its lazy `size` / `sha1` attributes evaluate to on the (read-only)
filesystem. -/
structure FileInfo where
  full_path : String
  size : Nat
  sha1 : String
deriving DecidableEq

/-- `IGNORED_FILES` (main.py:9). -/
def IGNORED_FILES : List String :=
  [".DS_Store", ".gdoc", ".gsheet", ".gslides"]

/-- Character-list prefix test (used to embed `str.endswith` and the
path-containment view of `os.walk`). -/
def charListIsPrefixOf : List Char → List Char → Bool
  | [], _ => true
  | _ :: _, [] => false
  | a :: as, b :: bs => decide (a = b) && charListIsPrefixOf as bs

/-- Embedding of `str.endswith(pattern)` (main.py:48): `pattern` is a
suffix of the string. -/
def strEndsWith (s pattern : String) : Bool :=
  charListIsPrefixOf pattern.data.reverse s.data.reverse

/-- Embedding of `LazyFile.ignored_by_path` (main.py:46-50): the loop with
early `return True` is an existential over the pattern list. -/
def FileInfo.ignored_by_path (f : FileInfo) : Bool :=
  IGNORED_FILES.any (fun pattern => strEndsWith f.full_path pattern)

/-- The key-function list `[lambda f: f.size, lambda f: f.sha1]` passed to
`match_by` by `main` (main.py:118). -/
def mainKeys : List (FileInfo → Key) :=
  [fun f => Key.intKey f.size, fun f => Key.strKey f.sha1]

/-- The matching stage of `main` (main.py:116-118): the scratch list is
filtered by `ignored_by_path`, the archive list is passed as-is. -/
def run_match (scratch archive : List FileInfo) : List FileInfo × List FileInfo :=
  match_by mainKeys (scratch.filter (fun f => !f.ignored_by_path)) archive

/-- Embedding of `'\n'.join(strings)` (main.py:106). -/
def joinWithNewline : List String → String
  | [] => ""
  | [s] => s
  | s :: rest => s ++ "\n" ++ joinWithNewline rest

/-- Code-point lexicographic `<=` on character lists: the comparison
`list.sort()` performs on Python `str` values. -/
def charListLe : List Char → List Char → Bool
  | [], _ => true
  | _ :: _, [] => false
  | a :: as, b :: bs =>
    if a < b then true else if b < a then false else charListLe as bs

/-- The comparator of `files.sort()` (main.py:104) on path strings. -/
def pathLe (a b : String) : Bool :=
  charListLe a.data b.data

/-- Embedding of `write_paths_to_file` (main.py:102-106): the paths are
sorted (`files.sort()`, lexicographic string order) and the returned string
is the full contents written to the report file. -/
def write_paths_to_file (files : List FileInfo) : String :=
  joinWithNewline
    (List.insertionSort (fun a b : String => pathLe a b = true)
      (files.map (fun f => f.full_path))) ++ "\n"

/-- A read-only view of the filesystem for enumeration: the set of regular
file paths that exist. -/
structure FileSystem where
  filePaths : List String

/-- `os.path.isfile` (main.py:63). -/
def FileSystem.isfile (fs : FileSystem) (p : String) : Bool :=
  decide (p ∈ fs.filePaths)

/-- The files `os.walk(root)` enumerates (main.py:65-70): every existing
file lying under `root`.  For a root that does not exist, `os.walk` yields
nothing at all: CPython ignores the `scandir` error when `onerror` is left
at its default `None`, so enumeration silently produces no entries. -/
def FileSystem.walkFiles (fs : FileSystem) (root : String) : List String :=
  fs.filePaths.filter (fun p => charListIsPrefixOf (root ++ "/").data p.data)

/-- Embedding of `read_files` (main.py:59-73), returning the enumerated
paths: a file path enumerates itself, anything else is walked. -/
def read_files (fs : FileSystem) (directory_or_file : String) : List String :=
  if fs.isfile directory_or_file then [directory_or_file]
  else fs.walkFiles directory_or_file

/-- The mutable state of a `LazyFile` (main.py:21-25): the path plus the
`_size` / `_sha1` caches, both initially `None`. -/
structure LazyFile where
  full_path : String
  _size : Option Nat
  _sha1 : Option String

/-- `LazyFile.__init__` (main.py:22-25). -/
def LazyFile.init (full_path : String) : LazyFile :=
  ⟨full_path, none, none⟩

/-- Embedding of the `size` property (main.py:27-31).  `fs` maps a path to
the file's byte contents, so `os.path.getsize` returns its length; the
result is the value together with the updated descriptor state. -/
def LazyFile.size_get (fs : String → List Nat) (f : LazyFile) : Nat × LazyFile :=
  match f._size with
  | some s => (s, f)
  | none =>
    ((fs f.full_path).length, { f with _size := some ((fs f.full_path).length) })

/-- Embedding of the `sha1` property (main.py:33-44): the chunked SHA-1 of
the byte stream is a digest of the whole contents; `digest` abstracts
`hashlib.sha1(...).hexdigest()`. -/
def LazyFile.sha1_get (fs : String → List Nat) (digest : List Nat → String)
    (f : LazyFile) : String × LazyFile :=
  match f._sha1 with
  | some s => (s, f)
  | none =>
    (digest (fs f.full_path), { f with _sha1 := some (digest (fs f.full_path)) })

/-- The report-writing step of `main` (main.py:125-127): when `--output`
is supplied, both report files are written unconditionally. -/
def main_reports (matched no_match : List FileInfo) : String × String :=
  (write_paths_to_file matched, write_paths_to_file no_match)

end ConcreteModel

section StatefulModel

/-- Per-descriptor cache state of a run: descriptor `i`'s `_size` and
`_sha1` fields (main.py:24-25).  Descriptors are identified by index, as
Python identifies `LazyFile` objects by reference. -/
abbrev Caches := Nat → Option Nat × Option String

/-- In-place mutation of one descriptor's cache record. -/
def updateCache (σ : Caches) (i : Nat) (c : Option Nat × Option String) : Caches :=
  fun j => if j = i then c else σ j

variable (content : Nat → List Nat) (digest : List Nat → String)

/-- The value descriptor `i`'s `size` evaluates to (`os.path.getsize` is
the byte length of the contents). -/
def sizeF (i : Nat) : Key :=
  Key.intKey (content i).length

/-- The value descriptor `i`'s `sha1` evaluates to; `digest` abstracts
`hashlib.sha1(...).hexdigest()` over the byte stream. -/
def sha1F (i : Nat) : Key :=
  Key.strKey (digest (content i))

/-- Stateful evaluation of `lambda f: f.size` (main.py:118; property body
main.py:27-31): return the cached value, or compute it and fill `_size`. -/
def sizeK (i : Nat) (σ : Caches) : Key × Caches :=
  match (σ i).1 with
  | some s => (Key.intKey s, σ)
  | none =>
    (Key.intKey (content i).length,
      updateCache σ i (some (content i).length, (σ i).2))

/-- Stateful evaluation of `lambda f: f.sha1` (main.py:118; property body
main.py:33-44): return the cached digest, or compute it and fill `_sha1`. -/
def sha1K (i : Nat) (σ : Caches) : Key × Caches :=
  match (σ i).2 with
  | some s => (Key.strKey s, σ)
  | none =>
    (Key.strKey (digest (content i)),
      updateCache σ i ((σ i).1, some (digest (content i))))

/-- The loop of the stateful `group_by`: evaluating the key function may
fill a descriptor's cache, so the cache state threads through the
iteration. -/
def group_byS_go (func : Nat → Caches → Key × Caches) :
    List Nat → List (Key × List Nat) → Caches → List (Key × List Nat) × Caches
  | [], acc, σ => (acc, σ)
  | x :: xs, acc, σ =>
    let r := func x σ
    group_byS_go func xs (upsert r.1 x acc) r.2

/-- Stateful `group_by` (main.py:76-81). -/
def group_byS (func : Nat → Caches → Key × Caches) (files : List Nat)
    (σ : Caches) : List (Key × List Nat) × Caches :=
  group_byS_go func files [] σ

mutual

/-- Stateful `match_by` (main.py:84-99) over descriptor indices: the same
recursion as `match_by`, with the shared cache state threading through the
groupings and the recursive calls exactly as the Python object caches do. -/
def matchS : List (Nat → Caches → Key × Caches) → List Nat → List Nat →
    Caches → (List Nat × List Nat) × Caches
  | [], scratch, _, σ => ((scratch, []), σ)
  | f :: rest, scratch, archive, σ =>
    let p1 : List (Key × List Nat) × Caches := group_byS f scratch σ
    let p2 : List (Key × List Nat) × Caches := group_byS f archive p1.2
    let matching_keys : List Key :=
      (keysOf p1.1).filter (fun k => decide (k ∈ keysOf p2.1))
    let non_matching_keys : List Key :=
      (keysOf p1.1).filter (fun k => !decide (k ∈ keysOf p2.1))
    let no_match := (non_matching_keys.map (fun k => lookup_group p1.1 k)).flatten
    let p3 := matchSKeys rest p1.1 p2.1 matching_keys p2.2
    ((p3.1.1, no_match ++ p3.1.2), p3.2)
termination_by funcs _ _ _ => (funcs.length + 1, 0)

/-- The loop of main.py:95-98 in the stateful embedding. -/
def matchSKeys : List (Nat → Caches → Key × Caches) → List (Key × List Nat) →
    List (Key × List Nat) → List Key → Caches → (List Nat × List Nat) × Caches
  | _, _, _, [], σ => (([], []), σ)
  | rest, sg, ag, k :: ks, σ =>
    let q := matchS rest (lookup_group sg k) (lookup_group ag k) σ
    let q2 := matchSKeys rest sg ag ks q.2
    ((q.1.1 ++ q2.1.1, q.1.2 ++ q2.1.2), q2.2)
termination_by rest _ _ ks _ => (rest.length + 1, ks.length + 1)

end

/-- The key-function list of `main` (main.py:118) in the stateful
embedding. -/
def mainKeysS : List (Nat → Caches → Key × Caches) :=
  [sizeK content, sha1K content digest]

/-- Fresh caches: every `LazyFile` starts with `_size = _sha1 = None`
(main.py:24-25). -/
def initCaches : Caches :=
  fun _ => (none, none)

/-- A cache state is consistent when every filled field holds the value
the (read-only) filesystem determines for that descriptor. -/
def Consistent (σ : Caches) : Prop :=
  ∀ i, ((σ i).1 = none ∨ (σ i).1 = some (content i).length) ∧
       ((σ i).2 = none ∨ (σ i).2 = some (digest (content i)))

end StatefulModel

section GroupingLemmas

variable {α : Type} {κ : Type} [DecidableEq κ]

@[simp] theorem keysOf_nil : keysOf ([] : List (κ × List α)) = [] := rfl

@[simp] theorem keysOf_cons (p : κ × List α) (g : List (κ × List α)) :
    keysOf (p :: g) = p.1 :: keysOf g := rfl

@[simp] theorem lookup_group_nil (k : κ) :
    lookup_group ([] : List (κ × List α)) k = [] := rfl

@[simp] theorem lookup_group_cons (k' : κ) (xs : List α) (g : List (κ × List α)) (k : κ) :
    lookup_group ((k', xs) :: g) k = if k' = k then xs else lookup_group g k := rfl

theorem lookup_upsert (k : κ) (x : α) (g : List (κ × List α)) (k' : κ) :
    lookup_group (upsert k x g) k' =
      if k' = k then lookup_group g k ++ [x] else lookup_group g k' := by
  induction g with
  | nil =>
    by_cases h : k' = k
    · simp [upsert, h]
    · simp [upsert, h, Ne.symm h]
  | cons p rest ih =>
    obtain ⟨k0, xs⟩ := p
    by_cases h0 : k0 = k
    · subst h0
      by_cases h : k' = k0
      · simp [upsert, h]
      · simp [upsert, h, Ne.symm h]
    · by_cases h : k' = k
      · subst h
        simp [upsert, h0, ih]
      · simp [upsert, h0, h, ih]

theorem keysOf_upsert (k : κ) (x : α) (g : List (κ × List α)) :
    keysOf (upsert k x g) = if k ∈ keysOf g then keysOf g else keysOf g ++ [k] := by
  induction g with
  | nil => simp [upsert]
  | cons p rest ih =>
    obtain ⟨k0, xs⟩ := p
    by_cases h0 : k0 = k
    · subst h0
      simp [upsert]
    · by_cases hm : k ∈ keysOf rest
      · simp [upsert, h0, hm, ih, Ne.symm h0]
      · simp [upsert, h0, hm, ih, Ne.symm h0]

theorem lookup_group_by_foldl (func : α → κ) (files : List α)
    (init : List (κ × List α)) (k : κ) :
    lookup_group (files.foldl (fun res f => upsert (func f) f res) init) k =
      lookup_group init k ++ files.filter (fun x => func x = k) := by
  induction files generalizing init with
  | nil => simp
  | cons x xs ih =>
    by_cases h : func x = k
    · simp only [List.foldl_cons, ih, lookup_upsert, List.filter_cons]
      simp [h]
    · have hk : ¬ k = func x := fun he => h he.symm
      simp only [List.foldl_cons, ih, lookup_upsert, List.filter_cons]
      simp [hk, h]

/-- `group_by` groups are exactly the input elements with that key value,
in order. -/
theorem lookup_group_by (func : α → κ) (files : List α) (k : κ) :
    lookup_group (group_by func files) k = files.filter (fun x => func x = k) := by
  simpa [group_by] using lookup_group_by_foldl func files [] k

theorem mem_keysOf_foldl (func : α → κ) (files : List α)
    (init : List (κ × List α)) (k : κ) :
    k ∈ keysOf (files.foldl (fun res f => upsert (func f) f res) init) ↔
      k ∈ keysOf init ∨ k ∈ files.map func := by
  induction files generalizing init with
  | nil => simp
  | cons x xs ih =>
    simp only [List.foldl_cons, ih, keysOf_upsert, List.map_cons, List.mem_cons]
    by_cases hm : func x ∈ keysOf init
    · simp only [hm, if_true]
      constructor
      · intro h
        tauto
      · intro h
        rcases h with h | h | h
        · tauto
        · subst h
          tauto
        · tauto
    · simp only [hm, if_false, List.mem_append, List.mem_singleton]
      tauto

/-- A key appears in the grouping exactly when some input has that key. -/
theorem mem_keysOf_group_by (func : α → κ) (files : List α) (k : κ) :
    k ∈ keysOf (group_by func files) ↔ k ∈ files.map func := by
  simpa [group_by] using mem_keysOf_foldl func files [] k

theorem nodup_keysOf_foldl (func : α → κ) (files : List α)
    (init : List (κ × List α)) (h : (keysOf init).Nodup) :
    (keysOf (files.foldl (fun res f => upsert (func f) f res) init)).Nodup := by
  induction files generalizing init with
  | nil => simpa using h
  | cons x xs ih =>
    simp only [List.foldl_cons]
    apply ih
    rw [keysOf_upsert]
    by_cases hm : func x ∈ keysOf init
    · simpa [hm] using h
    · have hd : (keysOf init).Disjoint [func x] := by
        intro a ha hb
        have hax : a = func x := by simpa using hb
        exact hm (hax ▸ ha)
      simpa [hm] using List.Nodup.append h (List.nodup_singleton _) hd

/-- Dict keys are distinct. -/
theorem nodup_keysOf_group_by (func : α → κ) (files : List α) :
    (keysOf (group_by func files)).Nodup := by
  exact nodup_keysOf_foldl func files [] (by simp)

end GroupingLemmas

section PartitionLemmas

variable {α : Type} {κ : Type} [DecidableEq κ]

theorem filter_not_perm (p : α → Bool) (l : List α) :
    l.filter p ++ l.filter (fun x => !p x) ~ l := by
  induction l with
  | nil => simp
  | cons x xs ih =>
    by_cases h : p x = true
    · simpa [List.filter_cons, h] using ih.cons x
    · have h2 : (!p x) = true := by simp [h]
      rw [List.filter_cons, List.filter_cons, if_neg h, if_pos h2]
      exact List.perm_middle.trans (ih.cons x)

theorem sum_map_zero (g : κ → Nat) (ks : List κ)
    (hz : ∀ k ∈ ks, g k = 0) : (ks.map g).sum = 0 := by
  induction ks with
  | nil => rfl
  | cons k ktl ih =>
    have h1 : g k = 0 := hz k (by simp)
    have h2 : (ktl.map g).sum = 0 := ih (fun k' hk' => hz k' (by simp [hk']))
    simp [h1, h2]

theorem sum_map_single (g : κ → Nat) (ks : List κ) (k0 : κ)
    (hnd : ks.Nodup) (hmem : k0 ∈ ks) (hz : ∀ k ∈ ks, k ≠ k0 → g k = 0) :
    (ks.map g).sum = g k0 := by
  induction ks with
  | nil => cases hmem
  | cons k ktl ih =>
    rcases List.mem_cons.mp hmem with h | h
    · subst h
      have hztl : (ktl.map g).sum = 0 := by
        apply sum_map_zero
        intro k' hk'
        apply hz k' (List.mem_cons_of_mem _ hk')
        intro he
        exact (List.nodup_cons.mp hnd).1 (he ▸ hk')
      simp [hztl]
    · have hk0 : g k = 0 := by
        apply hz k (List.mem_cons_self _ _)
        intro he
        rw [he] at hnd
        exact (List.nodup_cons.mp hnd).1 h
      have := ih (List.nodup_cons.mp hnd).2 h
        (fun k' hk' hne => hz k' (List.mem_cons_of_mem _ hk') hne)
      simp [hk0, this]

/-- Partitioning a list by a key function over a duplicate-free covering key
list and flattening recovers the list up to permutation. -/
theorem perm_flatten_filter [DecidableEq α] (f : α → κ) (l : List α) (ks : List κ)
    (hnd : ks.Nodup) (hcov : ∀ x ∈ l, f x ∈ ks) :
    (ks.map (fun k => l.filter (fun x => f x = k))).flatten ~ l := by
  rw [List.perm_iff_count]
  intro y
  rw [List.count_flatten, List.map_map]
  by_cases hy : y ∈ l
  · have hky := hcov y hy
    have heq : (ks.map (List.count y ∘ fun k => l.filter fun x => decide (f x = k))).sum =
        List.count y (l.filter fun x => decide (f x = f y)) := by
      apply sum_map_single _ ks (f y) hnd hky
      intro k hk hne
      simp only [Function.comp]
      apply List.count_eq_zero_of_not_mem
      intro hmem
      have h2 := (List.mem_filter.mp hmem).2
      have h3 : f y = k := by simpa using h2
      exact hne h3.symm
    rw [heq]
    apply List.count_filter
    simp
  · have h0 : List.count y l = 0 := List.count_eq_zero_of_not_mem hy
    rw [h0]
    apply sum_map_zero
    intro k hk
    simp only [Function.comp]
    apply List.count_eq_zero_of_not_mem
    intro hmem
    exact hy (List.mem_filter.mp hmem).1

theorem append_swap_perm [DecidableEq α] (a b c d : List α) :
    (a ++ b) ++ (c ++ d) ~ (a ++ c) ++ (b ++ d) := by
  rw [List.perm_iff_count]
  intro y
  simp only [List.count_append]
  omega

theorem append_rot_perm [DecidableEq α] (a b c : List α) :
    a ++ (b ++ c) ~ (a ++ c) ++ b := by
  rw [List.perm_iff_count]
  intro y
  simp only [List.count_append]
  omega

theorem match_keys_partition [DecidableEq α] (rest : List (α → κ))
    (IH : ∀ s a : List α, (match_by rest s a).1 ++ (match_by rest s a).2 ~ s)
    (sg ag : List (κ × List α)) (ks : List κ) :
    (match_keys rest sg ag ks).1 ++ (match_keys rest sg ag ks).2 ~
      (ks.map (fun k => lookup_group sg k)).flatten := by
  induction ks with
  | nil => simp [match_keys]
  | cons k ktl ih =>
    simp only [match_keys, List.map_cons, List.flatten_cons]
    exact (append_swap_perm _ _ _ _).trans ((IH _ _).append ih)

/-- The matcher partitions its scratch input: `matching ++ no_match` is a
permutation of `scratch`, for every key-function list and archive. -/
theorem match_by_partition [DecidableEq α] (funcs : List (α → κ)) :
    ∀ scratch archive : List α,
      (match_by funcs scratch archive).1 ++ (match_by funcs scratch archive).2 ~
        scratch := by
  induction funcs with
  | nil =>
    intro scratch archive
    simp [match_by]
  | cons f rest ih =>
    intro scratch archive
    simp only [match_by]
    have h1 := match_keys_partition rest ih (group_by f scratch) (group_by f archive)
      ((keysOf (group_by f scratch)).filter
        (fun k => decide (k ∈ keysOf (group_by f archive))))
    have h2 : ((keysOf (group_by f scratch)).filter
          (fun k => decide (k ∈ keysOf (group_by f archive))) ++
        (keysOf (group_by f scratch)).filter
          (fun k => !decide (k ∈ keysOf (group_by f archive)))) ~
        keysOf (group_by f scratch) :=
      filter_not_perm _ _
    have h3 : (((keysOf (group_by f scratch)).filter
            (fun k => decide (k ∈ keysOf (group_by f archive))) ++
          (keysOf (group_by f scratch)).filter
            (fun k => !decide (k ∈ keysOf (group_by f archive)))).map
          (fun k => lookup_group (group_by f scratch) k)).flatten ~
        ((keysOf (group_by f scratch)).map
          (fun k => lookup_group (group_by f scratch) k)).flatten :=
      (h2.map _).flatten
    have h4 : ((keysOf (group_by f scratch)).map
          (fun k => lookup_group (group_by f scratch) k)).flatten ~ scratch := by
      have hmap : (keysOf (group_by f scratch)).map
            (fun k => lookup_group (group_by f scratch) k) =
          (keysOf (group_by f scratch)).map
            (fun k => scratch.filter (fun x => f x = k)) := by
        apply List.map_congr_left
        intro k hk
        exact lookup_group_by f scratch k
      rw [hmap]
      apply perm_flatten_filter f scratch _ (nodup_keysOf_group_by f scratch)
      intro x hx
      rw [mem_keysOf_group_by]
      exact List.mem_map_of_mem f hx
    refine (append_rot_perm _ _ _).trans ?_
    refine ((h1.append (List.Perm.refl _)).trans ?_)
    rw [← List.flatten_append, ← List.map_append]
    exact h3.trans h4

end PartitionLemmas

section MatcherFacts

variable {α : Type} {κ : Type} [DecidableEq κ]

/-- A scratch element whose first-stage key is shared by no archive element
lands in the `no_match` component. -/
theorem mem_no_match_of_fresh_key (f : α → κ) (rest : List (α → κ))
    (scratch archive : List α) (x : α)
    (hx : x ∈ scratch) (hk : f x ∉ archive.map f) :
    x ∈ (match_by (f :: rest) scratch archive).2 := by
  simp only [match_by]
  apply List.mem_append_left
  rw [List.mem_flatten]
  refine ⟨lookup_group (group_by f scratch) (f x), ?_, ?_⟩
  · apply List.mem_map_of_mem
    rw [List.mem_filter]
    constructor
    · rw [mem_keysOf_group_by]
      exact List.mem_map_of_mem f hx
    · simp only [Bool.not_eq_true', decide_eq_false_iff_not]
      rw [mem_keysOf_group_by]
      exact hk
  · rw [lookup_group_by]
    rw [List.mem_filter]
    exact ⟨hx, by simp⟩

/-- Elements of the matched output come from the scratch input (consequence
of the partition property). -/
theorem mem_scratch_of_mem_output [DecidableEq α] (funcs : List (α → κ))
    (scratch archive : List α) (x : α)
    (hx : x ∈ (match_by funcs scratch archive).1 ∨
          x ∈ (match_by funcs scratch archive).2) :
    x ∈ scratch := by
  have h := match_by_partition funcs scratch archive
  exact h.mem_iff.mp (List.mem_append.mpr hx)

/-- An empty scratch input yields empty matched and unmatched outputs. -/
theorem match_by_nil_scratch (funcs : List (α → κ)) (archive : List α) :
    match_by funcs ([] : List α) archive = ([], []) := by
  cases funcs with
  | nil => simp [match_by]
  | cons f rest => simp [match_by, group_by, match_keys]

/-- With a non-empty key list and an empty archive, nothing is matched. -/
theorem match_by_nil_archive_matched (f : α → κ) (rest : List (α → κ))
    (scratch : List α) :
    (match_by (f :: rest) scratch ([] : List α)).1 = [] := by
  simp [match_by, group_by, match_keys]

end MatcherFacts

section StringOrderLemmas

theorem charListLe_eq_not_lt : ∀ as bs : List Char,
    (charListLe as bs = true ↔ ¬ List.lt bs as)
  | [], [] => by
    simp only [charListLe]
    exact iff_of_true trivial (fun h => nomatch h)
  | [], b :: btl => by
    simp only [charListLe]
    exact iff_of_true trivial (fun h => nomatch h)
  | a :: atl, [] => by
    simp only [charListLe]
    exact iff_of_false (by simp) (fun h => h (List.lt.nil a atl))
  | a :: atl, b :: btl => by
    by_cases hab : a < b
    · have hba : ¬ b < a := lt_asymm hab
      simp only [charListLe, if_pos hab]
      apply iff_of_true trivial
      intro h
      cases h with
      | head _ _ h' => exact hba h'
      | tail h1 h2 _ => exact h2 hab
    · by_cases hba : b < a
      · simp only [charListLe, if_neg hab, if_pos hba]
        exact iff_of_false (by simp) (fun hn => hn (List.lt.head btl atl hba))
      · simp only [charListLe, if_neg hab, if_neg hba]
        rw [charListLe_eq_not_lt atl btl]
        constructor
        · intro h hlt
          cases hlt with
          | head _ _ h' => exact hba h'
          | tail h1 h2 h3 => exact h h3
        · intro h hlt
          exact h (List.lt.tail hba hab hlt)

theorem charListLe_iff (as bs : List Char) : charListLe as bs = true ↔ as ≤ bs := by
  rw [charListLe_eq_not_lt as bs]
  rw [List.lt_iff_lex_lt bs as]
  exact @not_lt (List Char) _ bs as

/-- The embedded comparator agrees with the lexicographic order on
`String`. -/
theorem pathLe_iff_le (a b : String) : pathLe a b = true ↔ a ≤ b := by
  rw [pathLe, charListLe_iff]
  exact String.le_iff_toList_le.symm

end StringOrderLemmas

section StatefulLemmas

variable (content : Nat → List Nat) (digest : List Nat → String)

theorem updateCache_self (σ : Caches) (i : Nat) (c : Option Nat × Option String) :
    updateCache σ i c i = c := by
  simp [updateCache]

theorem updateCache_other (σ : Caches) (i : Nat) (c : Option Nat × Option String)
    (j : Nat) (h : j ≠ i) : updateCache σ i c j = σ j := by
  simp [updateCache, h]

theorem initCaches_consistent : Consistent content digest initCaches :=
  fun _ => ⟨Or.inl rfl, Or.inl rfl⟩

theorem sizeK_val (σ : Caches) (hσ : Consistent content digest σ) (i : Nat) :
    (sizeK content i σ).1 = sizeF content i := by
  rcases (hσ i).1 with h | h
  · simp [sizeK, sizeF, h]
  · simp [sizeK, sizeF, h]

theorem sizeK_consistent (σ : Caches) (hσ : Consistent content digest σ) (i : Nat) :
    Consistent content digest (sizeK content i σ).2 := by
  intro j
  rcases hc : (σ i).1 with _ | v
  · simp only [sizeK, hc]
    by_cases hj : j = i
    · subst hj
      rw [updateCache_self]
      exact ⟨Or.inr rfl, (hσ j).2⟩
    · rw [updateCache_other _ _ _ _ hj]
      exact hσ j
  · simp only [sizeK, hc]
    exact hσ j

theorem sizeK_frame (σ : Caches) (i j : Nat) (h : j ≠ i) :
    ((sizeK content i σ).2) j = σ j := by
  rcases hc : (σ i).1 with _ | v
  · simp [sizeK, hc, updateCache, h]
  · simp [sizeK, hc]

theorem sizeK_sha1_comp (σ : Caches) (i j : Nat) :
    (((sizeK content i σ).2) j).2 = (σ j).2 := by
  rcases hc : (σ i).1 with _ | v
  · by_cases hj : j = i
    · subst hj
      simp [sizeK, hc, updateCache]
    · simp [sizeK, hc, updateCache, hj]
  · simp [sizeK, hc]

theorem sha1K_val (σ : Caches) (hσ : Consistent content digest σ) (i : Nat) :
    (sha1K content digest i σ).1 = sha1F content digest i := by
  rcases (hσ i).2 with h | h
  · simp [sha1K, sha1F, h]
  · simp [sha1K, sha1F, h]

theorem sha1K_consistent (σ : Caches) (hσ : Consistent content digest σ) (i : Nat) :
    Consistent content digest (sha1K content digest i σ).2 := by
  intro j
  rcases hc : (σ i).2 with _ | v
  · simp only [sha1K, hc]
    by_cases hj : j = i
    · subst hj
      rw [updateCache_self]
      exact ⟨(hσ j).1, Or.inr rfl⟩
    · rw [updateCache_other _ _ _ _ hj]
      exact hσ j
  · simp only [sha1K, hc]
    exact hσ j

theorem sha1K_frame (σ : Caches) (i j : Nat) (h : j ≠ i) :
    ((sha1K content digest i σ).2) j = σ j := by
  rcases hc : (σ i).2 with _ | v
  · simp [sha1K, hc, updateCache, h]
  · simp [sha1K, hc]

theorem group_byS_go_spec (f : Nat → Caches → Key × Caches) (g : Nat → Key)
    (hval : ∀ σ, Consistent content digest σ → ∀ i, (f i σ).1 = g i)
    (hcons : ∀ σ, Consistent content digest σ →
      ∀ i, Consistent content digest (f i σ).2)
    (hframe : ∀ σ i j, j ≠ i → ((f i σ).2) j = σ j)
    (files : List Nat) :
    ∀ (acc : List (Key × List Nat)) (σ : Caches), Consistent content digest σ →
      (group_byS_go f files acc σ).1 =
        files.foldl (fun res x => upsert (g x) x res) acc ∧
      Consistent content digest (group_byS_go f files acc σ).2 ∧
      ∀ j, j ∉ files → (group_byS_go f files acc σ).2 j = σ j := by
  induction files with
  | nil =>
    intro acc σ hσ
    exact ⟨rfl, hσ, fun j _ => rfl⟩
  | cons x xs ih =>
    intro acc σ hσ
    obtain ⟨ih1, ih2, ih3⟩ := ih (upsert (g x) x acc) ((f x σ).2) (hcons σ hσ x)
    simp only [group_byS_go]
    rw [hval σ hσ x]
    refine ⟨?_, ih2, ?_⟩
    · rw [ih1, List.foldl_cons]
    · intro j hj
      have hj1 : j ∉ xs := fun hmem => hj (List.mem_cons_of_mem _ hmem)
      have hj2 : j ≠ x := fun he => hj (he ▸ List.mem_cons_self _ _)
      rw [ih3 j hj1]
      exact hframe σ x j hj2

theorem group_byS_spec (f : Nat → Caches → Key × Caches) (g : Nat → Key)
    (hval : ∀ σ, Consistent content digest σ → ∀ i, (f i σ).1 = g i)
    (hcons : ∀ σ, Consistent content digest σ →
      ∀ i, Consistent content digest (f i σ).2)
    (hframe : ∀ σ i j, j ≠ i → ((f i σ).2) j = σ j)
    (files : List Nat) (σ : Caches) (hσ : Consistent content digest σ) :
    (group_byS f files σ).1 = group_by g files ∧
    Consistent content digest (group_byS f files σ).2 ∧
    ∀ j, j ∉ files → (group_byS f files σ).2 j = σ j := by
  simpa [group_byS, group_by] using
    group_byS_go_spec content digest f g hval hcons hframe files [] σ hσ

theorem group_byS_go_comp (f : Nat → Caches → Key × Caches)
    (hcomp : ∀ σ i j, (((f i σ).2) j).2 = (σ j).2) (files : List Nat) :
    ∀ (acc : List (Key × List Nat)) (σ : Caches) (j : Nat),
      (((group_byS_go f files acc σ).2) j).2 = (σ j).2 := by
  induction files with
  | nil =>
    intro acc σ j
    rfl
  | cons x xs ih =>
    intro acc σ j
    simp only [group_byS_go]
    rw [ih (upsert (f x σ).1 x acc) ((f x σ).2) j]
    exact hcomp σ x j

theorem group_byS_comp (f : Nat → Caches → Key × Caches)
    (hcomp : ∀ σ i j, (((f i σ).2) j).2 = (σ j).2)
    (files : List Nat) (σ : Caches) (j : Nat) :
    (((group_byS f files σ).2) j).2 = (σ j).2 :=
  group_byS_go_comp f hcomp files [] σ j

theorem matchS_nil_funcs (s a : List Nat) (σ : Caches) :
    matchS [] s a σ = ((s, []), σ) := by
  simp [matchS]

theorem matchSKeys_nil_funcs (sg ag : List (Key × List Nat)) (ks : List Key)
    (σ : Caches) :
    matchSKeys [] sg ag ks σ = (match_keys ([] : List (Nat → Key)) sg ag ks, σ) := by
  induction ks generalizing σ with
  | nil => simp [matchSKeys, match_keys]
  | cons k ktl ih => simp [matchSKeys, match_keys, matchS_nil_funcs, match_by, ih]

theorem matchS_sha1_spec (s a : List Nat) (σ : Caches)
    (hσ : Consistent content digest σ) :
    (matchS [sha1K content digest] s a σ).1 = match_by [sha1F content digest] s a ∧
    Consistent content digest (matchS [sha1K content digest] s a σ).2 ∧
    ∀ j, j ∉ s → j ∉ a → (matchS [sha1K content digest] s a σ).2 j = σ j := by
  obtain ⟨hg1, hc1, hf1⟩ := group_byS_spec content digest (sha1K content digest)
    (sha1F content digest) (sha1K_val content digest) (sha1K_consistent content digest)
    (sha1K_frame content digest) s σ hσ
  obtain ⟨hg2, hc2, hf2⟩ := group_byS_spec content digest (sha1K content digest)
    (sha1F content digest) (sha1K_val content digest) (sha1K_consistent content digest)
    (sha1K_frame content digest) a ((group_byS (sha1K content digest) s σ).2) hc1
  refine ⟨?_, ?_, ?_⟩
  · simp only [matchS, match_by, matchSKeys_nil_funcs, hg1, hg2]
  · simp only [matchS, matchSKeys_nil_funcs]
    exact hc2
  · intro j hjs hja
    simp only [matchS, matchSKeys_nil_funcs]
    rw [hf2 j hja]
    exact hf1 j hjs

theorem matchSKeys_sha1_spec (sg ag : List (Key × List Nat)) (ks : List Key) :
    ∀ σ : Caches, Consistent content digest σ →
      (matchSKeys [sha1K content digest] sg ag ks σ).1 =
        match_keys [sha1F content digest] sg ag ks ∧
      Consistent content digest (matchSKeys [sha1K content digest] sg ag ks σ).2 ∧
      ∀ j, (∀ k ∈ ks, j ∉ lookup_group sg k ∧ j ∉ lookup_group ag k) →
        (matchSKeys [sha1K content digest] sg ag ks σ).2 j = σ j := by
  induction ks with
  | nil =>
    intro σ hσ
    refine ⟨by simp [matchSKeys, match_keys], by simpa [matchSKeys] using hσ, ?_⟩
    intro j _
    simp [matchSKeys]
  | cons k ktl ih =>
    intro σ hσ
    obtain ⟨h1, h2, h3⟩ :=
      matchS_sha1_spec content digest (lookup_group sg k) (lookup_group ag k) σ hσ
    obtain ⟨ih1, ih2, ih3⟩ :=
      ih ((matchS [sha1K content digest] (lookup_group sg k) (lookup_group ag k) σ).2) h2
    refine ⟨?_, ?_, ?_⟩
    · simp only [matchSKeys, match_keys, h1, ih1]
    · simp only [matchSKeys]
      exact ih2
    · intro j hj
      simp only [matchSKeys]
      rw [ih3 j (fun k2 hk2 => hj k2 (List.mem_cons_of_mem _ hk2))]
      exact h3 j (hj k (List.mem_cons_self _ _)).1 (hj k (List.mem_cons_self _ _)).2

theorem matchS_main_eq (s a : List Nat) (σ : Caches)
    (hσ : Consistent content digest σ) :
    (matchS (mainKeysS content digest) s a σ).1 =
      match_by [sizeF content, sha1F content digest] s a := by
  obtain ⟨hg1, hc1, hf1⟩ := group_byS_spec content digest (sizeK content)
    (sizeF content) (sizeK_val content digest) (sizeK_consistent content digest)
    (fun σ2 i j h => sizeK_frame content σ2 i j h) s σ hσ
  obtain ⟨hg2, hc2, hf2⟩ := group_byS_spec content digest (sizeK content)
    (sizeF content) (sizeK_val content digest) (sizeK_consistent content digest)
    (fun σ2 i j h => sizeK_frame content σ2 i j h) a
    ((group_byS (sizeK content) s σ).2) hc1
  have hk := matchSKeys_sha1_spec content digest
    (group_by (sizeF content) s) (group_by (sizeF content) a)
    ((keysOf (group_by (sizeF content) s)).filter
      (fun k => decide (k ∈ keysOf (group_by (sizeF content) a))))
    ((group_byS (sizeK content) a ((group_byS (sizeK content) s σ).2)).2) hc2
  simp only [mainKeysS, matchS, match_by, hg1, hg2, hk.1]

theorem matchS_main_sha1_frame (s a : List Nat) (σ : Caches)
    (hσ : Consistent content digest σ) (x : Nat)
    (hfresh : sizeF content x ∉ a.map (sizeF content)) (hxa : x ∉ a) :
    (((matchS (mainKeysS content digest) s a σ).2) x).2 = (σ x).2 := by
  obtain ⟨hg1, hc1, hf1⟩ := group_byS_spec content digest (sizeK content)
    (sizeF content) (sizeK_val content digest) (sizeK_consistent content digest)
    (fun σ2 i j h => sizeK_frame content σ2 i j h) s σ hσ
  obtain ⟨hg2, hc2, hf2⟩ := group_byS_spec content digest (sizeK content)
    (sizeF content) (sizeK_val content digest) (sizeK_consistent content digest)
    (fun σ2 i j h => sizeK_frame content σ2 i j h) a
    ((group_byS (sizeK content) s σ).2) hc1
  have hk := matchSKeys_sha1_spec content digest
    (group_by (sizeF content) s) (group_by (sizeF content) a)
    ((keysOf (group_by (sizeF content) s)).filter
      (fun k => decide (k ∈ keysOf (group_by (sizeF content) a))))
    ((group_byS (sizeK content) a ((group_byS (sizeK content) s σ).2)).2) hc2
  have hcond : ∀ k ∈ (keysOf (group_by (sizeF content) s)).filter
      (fun k => decide (k ∈ keysOf (group_by (sizeF content) a))),
      x ∉ lookup_group (group_by (sizeF content) s) k ∧
      x ∉ lookup_group (group_by (sizeF content) a) k := by
    intro k hk2
    rcases List.mem_filter.mp hk2 with ⟨hks, hka⟩
    have hka2 : k ∈ keysOf (group_by (sizeF content) a) := by
      simpa using hka
    constructor
    · intro hmem
      rw [lookup_group_by] at hmem
      have hkeq : sizeF content x = k := by
        simpa using (List.mem_filter.mp hmem).2
      apply hfresh
      rw [hkeq]
      exact (mem_keysOf_group_by (sizeF content) a k).mp hka2
    · intro hmem
      rw [lookup_group_by] at hmem
      exact hxa (List.mem_filter.mp hmem).1
  have hframe := hk.2.2 x hcond
  simp only [mainKeysS, matchS, hg1, hg2]
  rw [hframe]
  rw [group_byS_comp (sizeK content) (fun σ2 i j => sizeK_sha1_comp content σ2 i j) a
    ((group_byS (sizeK content) s σ).2) x]
  exact group_byS_comp (sizeK content)
    (fun σ2 i j => sizeK_sha1_comp content σ2 i j) s σ x

end StatefulLemmas

section Claims

/-- C1: for every scratch collection, archive collection and key-function
list, `match_by` returns a pair whose concatenation is a permutation of the
scratch input (union equals the input, nothing dropped or duplicated), and
for duplicate-free scratch inputs no descriptor appears in both outputs. -/
theorem spec_matcher_completeness {α κ : Type} [DecidableEq α] [DecidableEq κ]
    (funcs : List (α → κ)) (scratch archive : List α) :
    ((match_by funcs scratch archive).1 ++ (match_by funcs scratch archive).2 ~
      scratch) ∧
    (scratch.Nodup →
      ∀ x, ¬(x ∈ (match_by funcs scratch archive).1 ∧
             x ∈ (match_by funcs scratch archive).2)) := by
  refine ⟨match_by_partition funcs scratch archive, ?_⟩
  intro hnd x hx
  have hperm := match_by_partition funcs scratch archive
  have hnd2 : ((match_by funcs scratch archive).1 ++
      (match_by funcs scratch archive).2).Nodup := hperm.symm.nodup hnd
  rcases List.nodup_append.mp hnd2 with ⟨_, _, hdisj⟩
  exact hdisj hx.1 hx.2

theorem spec_matcher_completeness_check :
    ((match_by [fun n : Nat => n % 3] [1, 2, 4] [4]).1 ++
      (match_by [fun n : Nat => n % 3] [1, 2, 4] [4]).2 ~ [1, 2, 4]) ∧
    ¬((2 : Nat) ∈ (match_by [fun n : Nat => n % 3] [1, 2, 4] [4]).1 ∧
      (2 : Nat) ∈ (match_by [fun n : Nat => n % 3] [1, 2, 4] [4]).2) := by
  refine ⟨(spec_matcher_completeness [fun n : Nat => n % 3] [1, 2, 4] [4]).1, ?_⟩
  exact (spec_matcher_completeness [fun n : Nat => n % 3] [1, 2, 4] [4]).2
    (by decide) 2

/-- C3: two files of equal size but different digests end up unmatched
against each other under the key sequence `[size, sha1]`: size agreement
alone never produces a match. -/
theorem spec_hash_necessity (x y : FileInfo)
    (hs : x.size = y.size) (hh : x.sha1 ≠ y.sha1) :
    match_by mainKeys [x] [y] = ([], [x]) := by
  simp [mainKeys, match_by, match_keys, group_by, upsert, keysOf, lookup_group,
    hs, hh]

theorem spec_hash_necessity_check :
    (FileInfo.mk "/s/a.txt" 10 "h1").size = (FileInfo.mk "/a/x.bin" 10 "h2").size ∧
    (FileInfo.mk "/s/a.txt" 10 "h1").sha1 ≠ (FileInfo.mk "/a/x.bin" 10 "h2").sha1 ∧
    match_by mainKeys [FileInfo.mk "/s/a.txt" 10 "h1"]
        [FileInfo.mk "/a/x.bin" 10 "h2"] =
      ([], [FileInfo.mk "/s/a.txt" 10 "h1"]) :=
  ⟨rfl, by decide, spec_hash_necessity _ _ rfl (by decide)⟩

/-- C4: the lazy `size` / `sha1` attributes are cached after the first
access: the cache then holds the returned value, and every later access
returns exactly that value with unchanged state regardless of the
filesystem contents — no recomputation or I/O, so the observed values never
change over the descriptor's lifetime. -/
theorem spec_lazy_cache_stable (fs : String → List Nat)
    (digest : List Nat → String) (f : LazyFile) :
    ((LazyFile.size_get fs f).2)._size = some (LazyFile.size_get fs f).1 ∧
    (∀ fs2, LazyFile.size_get fs2 (LazyFile.size_get fs f).2 =
      ((LazyFile.size_get fs f).1, (LazyFile.size_get fs f).2)) ∧
    ((LazyFile.sha1_get fs digest f).2)._sha1 =
      some (LazyFile.sha1_get fs digest f).1 ∧
    (∀ fs2 digest2, LazyFile.sha1_get fs2 digest2 (LazyFile.sha1_get fs digest f).2 =
      ((LazyFile.sha1_get fs digest f).1, (LazyFile.sha1_get fs digest f).2)) := by
  obtain ⟨p, s, h⟩ := f
  cases s with
  | none =>
    cases h with
    | none => simp [LazyFile.size_get, LazyFile.sha1_get]
    | some hv => simp [LazyFile.size_get, LazyFile.sha1_get]
  | some sv =>
    cases h with
    | none => simp [LazyFile.size_get, LazyFile.sha1_get]
    | some hv => simp [LazyFile.size_get, LazyFile.sha1_get]

/-- C5: the ignore filter is a pure suffix test applied to the scratch side
only, before matching: a scratch descriptor appears in the outputs exactly
when it is not ignored, `ignored_by_path` holds exactly when the path ends
in one of the four configured suffixes, and an archive descriptor with an
ignored path still participates in matching (the archive is never
filtered). -/
theorem spec_ignore_filter (scratch archive : List FileInfo) (f : FileInfo) :
    (f.ignored_by_path = true ↔
      (strEndsWith f.full_path ".DS_Store" = true ∨
       strEndsWith f.full_path ".gdoc" = true ∨
       strEndsWith f.full_path ".gsheet" = true ∨
       strEndsWith f.full_path ".gslides" = true)) ∧
    ((f ∈ (run_match scratch archive).1 ∨ f ∈ (run_match scratch archive).2) ↔
      (f ∈ scratch ∧ f.ignored_by_path = false)) ∧
    (∀ x y : FileInfo, x.size = y.size → x.sha1 = y.sha1 →
      x.ignored_by_path = false → run_match [x] [y] = ([x], [])) := by
  refine ⟨?_, ?_, ?_⟩
  · simp [FileInfo.ignored_by_path, IGNORED_FILES]
  · have hperm := match_by_partition mainKeys
      (scratch.filter (fun g => !g.ignored_by_path)) archive
    constructor
    · intro h
      have hmem : f ∈ scratch.filter (fun g => !g.ignored_by_path) :=
        hperm.mem_iff.mp (List.mem_append.mpr h)
      rcases List.mem_filter.mp hmem with ⟨h1, h2⟩
      exact ⟨h1, by simpa using h2⟩
    · rintro ⟨h1, h2⟩
      have hmem : f ∈ scratch.filter (fun g => !g.ignored_by_path) :=
        List.mem_filter.mpr ⟨h1, by simp [h2]⟩
      exact List.mem_append.mp (hperm.symm.mem_iff.mp hmem)
  · intro x y hs hh hx
    simp [run_match, mainKeys, match_by, match_keys, group_by, upsert, keysOf,
      lookup_group, hs, hh, hx]

theorem spec_ignore_filter_check :
    ((FileInfo.mk "/s/sub/.DS_Store" 7 "d").ignored_by_path = true ↔
      (strEndsWith "/s/sub/.DS_Store" ".DS_Store" = true ∨
       strEndsWith "/s/sub/.DS_Store" ".gdoc" = true ∨
       strEndsWith "/s/sub/.DS_Store" ".gsheet" = true ∨
       strEndsWith "/s/sub/.DS_Store" ".gslides" = true)) ∧
    ((FileInfo.mk "/s/sub/.DS_Store" 7 "d" ∈
        (run_match [FileInfo.mk "/s/sub/.DS_Store" 7 "d"] []).1 ∨
      FileInfo.mk "/s/sub/.DS_Store" 7 "d" ∈
        (run_match [FileInfo.mk "/s/sub/.DS_Store" 7 "d"] []).2) ↔
      (FileInfo.mk "/s/sub/.DS_Store" 7 "d" ∈ [FileInfo.mk "/s/sub/.DS_Store" 7 "d"] ∧
       (FileInfo.mk "/s/sub/.DS_Store" 7 "d").ignored_by_path = false)) ∧
    run_match [FileInfo.mk "/s/doc.txt" 7 "d"] [FileInfo.mk "/a/.DS_Store" 7 "d"] =
      ([FileInfo.mk "/s/doc.txt" 7 "d"], []) := by
  refine ⟨(spec_ignore_filter [FileInfo.mk "/s/sub/.DS_Store" 7 "d"] []
      (FileInfo.mk "/s/sub/.DS_Store" 7 "d")).1,
    (spec_ignore_filter [FileInfo.mk "/s/sub/.DS_Store" 7 "d"] []
      (FileInfo.mk "/s/sub/.DS_Store" 7 "d")).2.1, ?_⟩
  exact (spec_ignore_filter [] [] (FileInfo.mk "/s/doc.txt" 7 "d")).2.2
    (FileInfo.mk "/s/doc.txt" 7 "d") (FileInfo.mk "/a/.DS_Store" 7 "d")
    rfl rfl (by decide)

/-- C6: an empty scratch collection yields empty matched and unmatched
outputs for every archive and key list; an empty archive with a non-empty
key list yields empty matched and all scratch descriptors unmatched (as a
permutation), with no error in either case. -/
theorem spec_empty_inputs {α κ : Type} [DecidableEq α] [DecidableEq κ]
    (funcs : List (α → κ)) (archive : List α)
    (f : α → κ) (rest : List (α → κ)) (scratch : List α) :
    match_by funcs ([] : List α) archive = ([], []) ∧
    (match_by (f :: rest) scratch ([] : List α)).1 = [] ∧
    ((match_by (f :: rest) scratch ([] : List α)).2 ~ scratch) := by
  refine ⟨match_by_nil_scratch funcs archive,
    match_by_nil_archive_matched f rest scratch, ?_⟩
  have h := match_by_partition (f :: rest) scratch ([] : List α)
  rw [match_by_nil_archive_matched] at h
  simpa using h

/-- C7: a zero-length key-function list returns the entire scratch
collection as matched and an empty unmatched result. -/
theorem spec_empty_key_list {α κ : Type} [DecidableEq κ]
    (scratch archive : List α) :
    match_by ([] : List (α → κ)) scratch archive = (scratch, []) := by
  simp [match_by]

/-- C8: the report writer sorts the paths lexicographically (with respect to
the string order) into a permutation of the input paths, writes them
newline-delimited with a trailing newline, and on the spec's example input
produces exactly the expected file contents. -/
theorem spec_report_format (files : List FileInfo) :
    write_paths_to_file files =
      joinWithNewline
        (List.insertionSort (fun a b : String => pathLe a b = true)
          (files.map (fun f => f.full_path))) ++ "\n" ∧
    List.Sorted (fun a b : String => a ≤ b)
      (List.insertionSort (fun a b : String => pathLe a b = true)
        (files.map (fun f => f.full_path))) ∧
    (List.insertionSort (fun a b : String => pathLe a b = true)
        (files.map (fun f => f.full_path)) ~ files.map (fun f => f.full_path)) ∧
    write_paths_to_file [FileInfo.mk "/s/z.txt" 3 "h1", FileInfo.mk "/s/b.txt" 4 "h2"] =
      "/s/b.txt\n/s/z.txt\n" := by
  haveI htot : IsTotal String (fun a b => pathLe a b = true) := by
    constructor
    intro a b
    rw [pathLe_iff_le, pathLe_iff_le]
    exact le_total a b
  haveI htrans : IsTrans String (fun a b => pathLe a b = true) := by
    constructor
    intro a b c hab hbc
    rw [pathLe_iff_le] at hab hbc ⊢
    exact le_trans hab hbc
  refine ⟨rfl, ?_, List.perm_insertionSort _ _, by decide⟩
  have hs := List.sorted_insertionSort (fun a b : String => pathLe a b = true)
    (files.map (fun f => f.full_path))
  exact List.Pairwise.imp (fun h => (pathLe_iff_le _ _).mp h) hs

/-- C9 (corrected): enumerating a nonexistent scratch root does NOT abort:
`os.path.isfile` is false, `os.walk` silently yields nothing, so
`read_files` returns the empty list and matching proceeds normally on empty
scratch input, producing empty outputs. -/
theorem spec_path_error_counterexample :
    FileSystem.isfile ⟨["/data/a.txt"]⟩ "/missing" = false ∧
    read_files ⟨["/data/a.txt"]⟩ "/missing" = [] ∧
    run_match ((read_files ⟨["/data/a.txt"]⟩ "/missing").map
        (fun p => FileInfo.mk p 0 ""))
      [FileInfo.mk "/data/a.txt" 0 ""] = ([], []) := by
  refine ⟨by decide, by decide, ?_⟩
  have h : read_files ⟨["/data/a.txt"]⟩ "/missing" = [] := by decide
  rw [h]
  simp only [List.map_nil, run_match, List.filter_nil]
  exact match_by_nil_scratch mainKeys _

/-- C9 amended: a root that is neither an existing file nor an ancestor of
any existing file makes `read_files` silently return the empty list, and
the run proceeds to matching (with empty outputs) instead of failing before
matching begins. -/
theorem spec_path_error_amended (fs : FileSystem) (root : String)
    (archive : List FileInfo)
    (h1 : fs.isfile root = false)
    (h2 : ∀ p ∈ fs.filePaths, charListIsPrefixOf (root ++ "/").data p.data = false) :
    read_files fs root = [] ∧
    run_match ((read_files fs root).map (fun p => FileInfo.mk p 0 "")) archive =
      ([], []) := by
  have hr : read_files fs root = [] := by
    rw [read_files, if_neg (by simp [h1])]
    rw [FileSystem.walkFiles]
    rw [List.filter_eq_nil_iff]
    intro p hp
    rw [h2 p hp]
    simp
  refine ⟨hr, ?_⟩
  rw [hr]
  simp only [List.map_nil, run_match, List.filter_nil]
  exact match_by_nil_scratch mainKeys archive

theorem spec_path_error_amended_check :
    FileSystem.isfile ⟨["/arc/b.txt"]⟩ "/nope" = false ∧
    (∀ p ∈ (FileSystem.mk ["/arc/b.txt"]).filePaths,
      charListIsPrefixOf ("/nope" ++ "/").data p.data = false) ∧
    read_files ⟨["/arc/b.txt"]⟩ "/nope" = [] ∧
    run_match ((read_files ⟨["/arc/b.txt"]⟩ "/nope").map
        (fun p => FileInfo.mk p 0 "")) [FileInfo.mk "/arc/b.txt" 1 "d"] =
      ([], []) := by
  refine ⟨by decide, by decide, ?_, ?_⟩
  · exact (spec_path_error_amended ⟨["/arc/b.txt"]⟩ "/nope"
      [FileInfo.mk "/arc/b.txt" 1 "d"] (by decide) (by decide)).1
  · exact (spec_path_error_amended ⟨["/arc/b.txt"]⟩ "/nope"
      [FileInfo.mk "/arc/b.txt" 1 "d"] (by decide) (by decide)).2

/-- C10: given an empty descriptor list the report writer still produces
file contents, and those contents are exactly one newline character (a
single blank line) rather than the empty string; `main` writes this for
`duplicates.txt` whenever `--output` is supplied and nothing matched. -/
theorem spec_report_empty_newline (no_match : List FileInfo) :
    write_paths_to_file ([] : List FileInfo) = "\n" ∧
    ("\n" : String) ≠ "" ∧
    (main_reports [] no_match).1 = "\n" :=
  ⟨rfl, by decide, rfl⟩

/-- C2: in the stateful run of `main`'s matcher, a scratch descriptor whose
size (first-stage key) equals no archive descriptor's size is classified
unmatched, and the later key function is never evaluated on it: its `_sha1`
cache field is still `None` at the end of the run (evaluating the `sha1`
property always fills the cache, main.py:35-43, so an unset cache witnesses
that the hash computation never ran). -/
theorem spec_short_circuit (content : Nat → List Nat) (digest : List Nat → String)
    (scratch archive : List Nat) (x : Nat)
    (hx : x ∈ scratch)
    (hk : (content x).length ∉ archive.map (fun i => (content i).length)) :
    x ∈ (matchS (mainKeysS content digest) scratch archive initCaches).1.2 ∧
    (((matchS (mainKeysS content digest) scratch archive initCaches).2) x).2 =
      none := by
  have hσ0 := initCaches_consistent content digest
  have hfresh : sizeF content x ∉ archive.map (sizeF content) := by
    intro hm
    apply hk
    rcases List.mem_map.mp hm with ⟨i, hi, he⟩
    refine List.mem_map.mpr ⟨i, hi, ?_⟩
    simpa [sizeF] using he
  have hxa : x ∉ archive := by
    intro hm
    exact hk (List.mem_map.mpr ⟨x, hm, rfl⟩)
  constructor
  · rw [matchS_main_eq content digest scratch archive initCaches hσ0]
    exact mem_no_match_of_fresh_key (sizeF content) [sha1F content digest]
      scratch archive x hx hfresh
  · rw [matchS_main_sha1_frame content digest scratch archive initCaches hσ0 x
      hfresh hxa]
    rfl

theorem spec_short_circuit_check :
    (0 : Nat) ∈ [0] ∧
    ((fun i : Nat => if i = 0 then [7] else [1, 2]) 0).length ∉
      [1].map (fun i => ((fun i : Nat => if i = 0 then [7] else [1, 2]) i).length) ∧
    (0 ∈ (matchS (mainKeysS (fun i : Nat => if i = 0 then [7] else [1, 2])
        (fun _ => "d")) [0] [1] initCaches).1.2 ∧
     (((matchS (mainKeysS (fun i : Nat => if i = 0 then [7] else [1, 2])
        (fun _ => "d")) [0] [1] initCaches).2) 0).2 = none) := by
  refine ⟨by decide, by decide, ?_⟩
  exact spec_short_circuit (fun i : Nat => if i = 0 then [7] else [1, 2])
    (fun _ => "d") [0] [1] 0 (by decide) (by decide)

end Claims

end NoFileLeftBehind
